import Mathlib

/-!
Verification of the XOR-cipher crackers in src/src/crackers/xor_ciphers.rs.

Byte buffers are modelled as `List Nat` (each element a byte value).  The three
helper functions the crackers import (`crate::bitflips::xor`,
`crate::scorers::english_scorers::english_score`,
`crate::scorers::hamming_distance::hamming_distance`) are not part of src/;
they are modelled from the spec (§4.1–§4.3) as noted on each definition.  The
English scorer is deliberately kept as an explicit parameter of every cracker:
the crackers treat it as an opaque black box, and every theorem below is proved
for an arbitrary scorer, hence in particular for the repository's scorer.

Scores: the Rust scorer returns `f64` values which the crackers only ever use
through `f64::total_cmp`, a total order.  The set of all `f64` bit patterns is
finite and totally ordered by `total_cmp`, so any `f64`-valued scorer
order-embeds into `Int`; modelling scores as `Int` is therefore faithful for
every order-theoretic property of the crackers.

Averages: `average_hamming_distance` computes
`total as f64 / (10.0 * block_size as f64)` and the caller compares the
results with `f64::total_cmp`.  Here `total ≤ 8·40·10 = 3200` and
`10·block_size ≤ 400` are exact small integers, so the true quotients are
rationals with denominator ≤ 400, and two distinct such quotients (both in
[0,8]) differ by at least 1/400² = 6.25·10⁻⁶, while one correctly-rounded
`f64` division introduces an absolute error below 8·2⁻⁵³ < 10⁻¹⁵.  Hence
comparing the `f64` quotients with `total_cmp` coincides exactly with
comparing the exact rationals, which we represent as explicit
numerator/denominator pairs (`Frac`) compared by cross-multiplication.
-/

namespace Crackers

/-- Error outcomes of the crackers.  `EmptyArrayError` is the source's own
error struct (xor_ciphers.rs line 10); `Panic` models any Rust panic (a failed
`expect` or an out-of-range slice index); `InsufficientDataError` is the error
named by the spec's §7 taxonomy, included so that claims about it can be
stated — the source never produces it. -/
inductive CrackError where
  | EmptyArrayError
  | InsufficientDataError
  | Panic
deriving DecidableEq, Repr

/-- Modelled from the spec: the XOR Engine of §4.1 (`crate::bitflips::xor`,
absent from src/), specialised to the single-byte key form used at every call
site in xor_ciphers.rs (`xor(ciphertext, &candidate_byte)`): output byte `i`
is `data[i] XOR key`. -/
def xor (data : List Nat) (key : Nat) : List Nat :=
  data.map (fun b => Nat.xor b key)

/-- Fuel-driven population count; `popCountAux n n` counts the set bits
of `n`, since a positive number halves to zero within `n` steps. -/
def popCountAux : Nat → Nat → Nat
  | 0, _ => 0
  | fuel + 1, n => if n = 0 then 0 else n % 2 + popCountAux fuel (n / 2)

/-- Number of set bits of a natural number. -/
def popCount (n : Nat) : Nat := popCountAux n n

/-- Modelled from the spec: the Distance Metric of §4.2
(`crate::scorers::hamming_distance`, absent from src/): the total count of
differing bits of two equal-length buffers; `none` models the
`LengthMismatchError` contract violation on unequal lengths. -/
def hamming_distance (a b : List Nat) : Option Nat :=
  if a.length = b.length then
    some ((List.zipWith (fun x y => popCount (Nat.xor x y)) a b).sum)
  else none

/-- `f64::total_cmp` on scores, with scores modelled as `Int`
(see the header comment). -/
def total_cmp (a b : Int) : Ordering :=
  if a < b then .lt else if b < a then .gt else .eq

/-- An exact nonnegative fraction `num / den`; the value of
`average_hamming_distance` (see the header comment). -/
structure Frac where
  num : Nat
  den : Nat
deriving DecidableEq, Repr

/-- The rational value of a `Frac`. -/
def Frac.toRat (x : Frac) : ℚ := (x.num : ℚ) / (x.den : ℚ)

/-- `f64::total_cmp` on the exact quotients produced by
`average_hamming_distance`, computed by cross-multiplication (exactness
argument in the header comment; denominators are positive at every use). -/
def Frac.cmp (x y : Frac) : Ordering :=
  if x.num * y.den < y.num * x.den then .lt
  else if y.num * x.den < x.num * y.den then .gt
  else .eq

/-- xor_ciphers.rs line 5. -/
def MIN_KEYSIZE : Nat := 2

/-- xor_ciphers.rs line 6. -/
def MAX_KEYSIZE : Nat := 40

/-- xor_ciphers.rs line 7. -/
def NUM_BLOCKS_AVG_DIST : Nat := 10

/-- One step of Rust's `Iterator::max_by` fold: the earlier element is kept
only when it compares strictly greater, so on ties the later element replaces
it — `max_by` returns the LAST maximal element (Rust documentation). -/
def maxByStep (cmp : α → α → Ordering) (x y : α) : α :=
  if cmp x y = .gt then x else y

/-- One step of Rust's `Iterator::min_by` fold: the earlier element is kept
unless the later compares strictly smaller — `min_by` returns the FIRST
minimal element (Rust documentation). -/
def minByStep (cmp : α → α → Ordering) (x y : α) : α :=
  if cmp x y = .gt then y else x

/-- Rust's `Iterator::max_by`: `none` on an empty iterator, otherwise the
last maximal element. -/
def maxByCmp (cmp : α → α → Ordering) : List α → Option α
  | [] => none
  | x :: xs => some (xs.foldl (maxByStep cmp) x)

/-- Rust's `Iterator::min_by`: `none` on an empty iterator, otherwise the
first minimal element. -/
def minByCmp (cmp : α → α → Ordering) : List α → Option α
  | [] => none
  | x :: xs => some (xs.foldl (minByStep cmp) x)

/-- xor_ciphers.rs lines 13–23, `find_key_single_byte_xor_cipher`, up to the
final `.expect`: the `max_by` over the candidate range.  Rust's `(0u8..255)`
is a half-open range, so the candidates are 0,…,254, modelled by
`List.range 255`.  The comparator XORs both candidates against the ciphertext
and compares the english scores with `total_cmp`, exactly as lines 18–20. -/
def find_key_single_byte_xor_cipher? (score : List Nat → Int) (ciphertext : List Nat) : Option Nat :=
  maxByCmp
    (fun x y => total_cmp (score (xor ciphertext x)) (score (xor ciphertext y)))
    (List.range 255)

/-- xor_ciphers.rs lines 13–23 with the `.expect`: the candidate range is
non-empty, so the option is always `some` (theorem `c8_find_key_total` below)
and the `getD` default is never used. -/
def find_key_single_byte_xor_cipher (score : List Nat → Int) (ciphertext : List Nat) : Nat :=
  (find_key_single_byte_xor_cipher? score ciphertext).getD 0

/-- xor_ciphers.rs lines 27–40, `detect_and_crack_single_byte_xor_cipher`:
error on an empty input batch, otherwise decrypt every ciphertext with its own
recovered key and keep the decryption of maximal english score (`max_by`,
hence the last maximal one on ties).  The inner `.expect` (line 36) is
modelled by `.error .Panic`; it is unreachable for a non-empty batch. -/
def detect_and_crack_single_byte_xor_cipher (score : List Nat → Int)
    (possible_ciphertexts : List (List Nat)) : Except CrackError (List Nat) :=
  if possible_ciphertexts.isEmpty then .error .EmptyArrayError
  else
    match maxByCmp (fun x y => total_cmp (score x) (score y))
        (possible_ciphertexts.map
          (fun x => xor x (find_key_single_byte_xor_cipher score x))) with
    | some p => .ok p
    | none => .error .Panic

/-- Rust slice indexing `&text[a..b]`: defined when `a ≤ b ≤ text.length`,
otherwise the program panics (`none`). -/
def slice (text : List Nat) (a b : Nat) : Option (List Nat) :=
  if a ≤ b ∧ b ≤ text.length then some ((text.drop a).take (b - a)) else none

/-- The summation of xor_ciphers.rs lines 53–59: the sum over `i < n` of the
Hamming distance between `text[bs*i .. bs*(i+1)]` and
`text[bs*(i+1) .. bs*(i+2)]`; `none` models the panic on an out-of-range
slice. -/
def sum_hamming_distances (text : List Nat) (block_size : Nat) : Nat → Option Nat
  | 0 => some 0
  | n + 1 =>
    match sum_hamming_distances text block_size n,
        slice text (block_size * n) (block_size * (n + 1)),
        slice text (block_size * (n + 1)) (block_size * (n + 2)) with
    | some rest, some first_block, some second_block =>
      (hamming_distance first_block second_block).map (fun d => rest + d)
    | _, _, _ => none

/-- xor_ciphers.rs lines 52–64, `average_hamming_distance`: the summed
distance over `NUM_BLOCKS_AVG_DIST` adjacent block pairs divided by
`NUM_BLOCKS_AVG_DIST * block_size`, the quotient represented exactly
(header comment). -/
def average_hamming_distance (text : List Nat) (block_size : Nat) : Option Frac :=
  (sum_hamming_distances text block_size NUM_BLOCKS_AVG_DIST).map
    (fun total => ⟨total, NUM_BLOCKS_AVG_DIST * block_size⟩)

/-- xor_ciphers.rs lines 43–49, `find_key_size_repeating_xor_cipher`:
`min_by` over candidate key sizes `MIN_KEYSIZE..MAX_KEYSIZE+1` (i.e. 2..=40),
comparing average Hamming distances with `total_cmp`.  Rust's `min_by`
evaluates the comparator — and hence `average_hamming_distance` — on every
candidate, so the call panics as soon as any candidate's slices are out of
range; the guard models exactly that.  Inside the guard every average is
`some` and the `getD` defaults are never used.  The final `.expect` is
unreachable (the candidate list is non-empty). -/
def find_key_size_repeating_xor_cipher (ciphertext : List Nat) : Except CrackError Nat :=
  let candidate_keysizes := List.range' MIN_KEYSIZE (MAX_KEYSIZE + 1 - MIN_KEYSIZE)
  if candidate_keysizes.all (fun s => (average_hamming_distance ciphertext s).isSome) then
    match minByCmp
        (fun x y => Frac.cmp
          ((average_hamming_distance ciphertext x).getD ⟨0, 1⟩)
          ((average_hamming_distance ciphertext y).getD ⟨0, 1⟩))
        candidate_keysizes with
    | some r => .ok r
    | none => .error .Panic
  else .error .Panic

/-- Modelled from the spec: per-letter weights of the Language Scorer
(§4.3, §9: a relative-frequency table of the English letters a–z). -/
def letter_weights : List Int :=
  [8, 1, 3, 4, 13, 2, 2, 6, 7, 1, 1, 4, 2, 7, 8, 2, 1, 6, 6, 9, 3, 1, 2, 1, 2, 1]

/-- Modelled from the spec: the per-byte weight of the Language Scorer of
§4.3 — case-insensitive letter weights, a bonus for space, zero for other
printable ASCII, a penalty for control and non-ASCII bytes. -/
def char_weight (b : Nat) : Int :=
  let l := if 65 ≤ b ∧ b ≤ 90 then b + 32 else b
  if l = 32 then 15
  else if 97 ≤ l ∧ l ≤ 122 then letter_weights.getD (l - 97) 0
  else if 33 ≤ l ∧ l ≤ 126 then 0
  else -10

/-- Modelled from the spec: the Language Scorer `english_score` of §4.3
(`crate::scorers::english_scorers`, absent from src/): the sum of the
per-byte weights. -/
def english_score (data : List Nat) : Int := (data.map char_weight).sum

/-- Modelled from the spec: §4.4's Single-Byte Key Cracker as the spec words
it — "iterates every candidate byte value 0..255 inclusive" with the
ascending-order tie-break — kept separate from the source translation above
so the two can be compared (claim C1). -/
def find_key_single_byte_xor_cipher_spec (score : List Nat → Int) (ciphertext : List Nat) : Nat :=
  (List.range' 1 255).foldl
    (fun a b =>
      if score (xor ciphertext a) < score (xor ciphertext b) then b else a) 0

/-! ### Helper lemmas about the comparators -/

theorem total_cmp_gt_iff {a b : Int} : total_cmp a b = .gt ↔ b < a := by
  unfold total_cmp
  split_ifs with h1 h2 <;> simp <;> omega

theorem Frac.cmp_gt_iff {x y : Frac} (hx : 0 < x.den) (hy : 0 < y.den) :
    Frac.cmp x y = .gt ↔ y.toRat < x.toRat := by
  unfold Frac.cmp Frac.toRat
  have hx' : (0 : ℚ) < (x.den : ℚ) := by exact_mod_cast hx
  have hy' : (0 : ℚ) < (y.den : ℚ) := by exact_mod_cast hy
  rw [div_lt_div_iff₀ hy' hx']
  have hcast : ((y.num : ℚ) * (x.den : ℚ) < (x.num : ℚ) * (y.den : ℚ)) ↔
      (y.num * x.den < x.num * y.den) := by exact_mod_cast Iff.rfl
  rw [hcast]
  split_ifs with h1 h2 <;> simp <;> omega

/-! ### Helper lemmas about the `max_by` / `min_by` folds -/

/-- The `max_by` fold yields an element satisfying any predicate `P` that all
elements satisfy, a member of the traversed elements, and a maximum of the key
function `F`, provided the comparator decides `F`-order on `P`-elements. -/
theorem foldl_maxByStep_spec {α β : Type} [LinearOrder β] (F : α → β)
    (cmp : α → α → Ordering) (P : α → Prop)
    (Hcmp : ∀ x y, P x → P y → (cmp x y = .gt ↔ F y < F x)) :
    ∀ (l : List α) (a : α), P a → (∀ b ∈ l, P b) →
      P (l.foldl (maxByStep cmp) a) ∧
      (l.foldl (maxByStep cmp) a = a ∨ l.foldl (maxByStep cmp) a ∈ l) ∧
      F a ≤ F (l.foldl (maxByStep cmp) a) ∧
      ∀ b ∈ l, F b ≤ F (l.foldl (maxByStep cmp) a) := by
  intro l
  induction l with
  | nil => intro a Pa _; exact ⟨Pa, Or.inl rfl, le_refl _, by simp⟩
  | cons b t ih =>
    intro a Pa Pbt
    have Pb : P b := Pbt b (by simp)
    have Pt : ∀ c ∈ t, P c := fun c hc => Pbt c (by simp [hc])
    have hstep : maxByStep cmp a b = a ∨ maxByStep cmp a b = b := by
      unfold maxByStep; split_ifs <;> simp
    have Pstep : P (maxByStep cmp a b) := by
      rcases hstep with h | h <;> rw [h] <;> assumption
    have hle_a : F a ≤ F (maxByStep cmp a b) := by
      unfold maxByStep
      split_ifs with h
      · exact le_refl _
      · exact not_lt.mp ((Hcmp a b Pa Pb).not.mp h)
    have hle_b : F b ≤ F (maxByStep cmp a b) := by
      unfold maxByStep
      split_ifs with h
      · exact le_of_lt ((Hcmp a b Pa Pb).mp h)
      · exact le_refl _
    obtain ⟨ih1, ih2, ih3, ih4⟩ := ih (maxByStep cmp a b) Pstep Pt
    simp only [List.foldl_cons]
    refine ⟨ih1, ?_, le_trans hle_a ih3, ?_⟩
    · rcases ih2 with h | h
      · rw [h]; rcases hstep with h' | h'
        · exact Or.inl h'
        · exact Or.inr (by simp [h'])
      · exact Or.inr (by simp [h])
    · intro c hc
      rcases List.mem_cons.mp hc with h | h
      · subst h; exact le_trans hle_b ih3
      · exact ih4 c h

/-- The `min_by` fold, dually: a member that minimises `F`. -/
theorem foldl_minByStep_spec {α β : Type} [LinearOrder β] (F : α → β)
    (cmp : α → α → Ordering) (P : α → Prop)
    (Hcmp : ∀ x y, P x → P y → (cmp x y = .gt ↔ F y < F x)) :
    ∀ (l : List α) (a : α), P a → (∀ b ∈ l, P b) →
      P (l.foldl (minByStep cmp) a) ∧
      (l.foldl (minByStep cmp) a = a ∨ l.foldl (minByStep cmp) a ∈ l) ∧
      F (l.foldl (minByStep cmp) a) ≤ F a ∧
      ∀ b ∈ l, F (l.foldl (minByStep cmp) a) ≤ F b := by
  intro l
  induction l with
  | nil => intro a Pa _; exact ⟨Pa, Or.inl rfl, le_refl _, by simp⟩
  | cons b t ih =>
    intro a Pa Pbt
    have Pb : P b := Pbt b (by simp)
    have Pt : ∀ c ∈ t, P c := fun c hc => Pbt c (by simp [hc])
    have hstep : minByStep cmp a b = a ∨ minByStep cmp a b = b := by
      unfold minByStep; split_ifs <;> simp
    have Pstep : P (minByStep cmp a b) := by
      rcases hstep with h | h <;> rw [h] <;> assumption
    have hle_a : F (minByStep cmp a b) ≤ F a := by
      unfold minByStep
      split_ifs with h
      · exact le_of_lt ((Hcmp a b Pa Pb).mp h)
      · exact le_refl _
    have hle_b : F (minByStep cmp a b) ≤ F b := by
      unfold minByStep
      split_ifs with h
      · exact le_refl _
      · exact not_lt.mp ((Hcmp a b Pa Pb).not.mp h)
    obtain ⟨ih1, ih2, ih3, ih4⟩ := ih (minByStep cmp a b) Pstep Pt
    simp only [List.foldl_cons]
    refine ⟨ih1, ?_, le_trans ih3 hle_a, ?_⟩
    · rcases ih2 with h | h
      · rw [h]; rcases hstep with h' | h'
        · exact Or.inl h'
        · exact Or.inr (by simp [h'])
      · exact Or.inr (by simp [h])
    · intro c hc
      rcases List.mem_cons.mp hc with h | h
      · subst h; exact le_trans ih3 hle_b
      · exact ih4 c h

/-- Over the ascending candidate list `a, a+1, …, a+n`, the `max_by` fold
returns a candidate in bounds that maximises `F`, and among equal maxima the
LAST — i.e. numerically largest — candidate. -/
theorem foldl_maxByStep_range_spec {β : Type} [LinearOrder β] (F : Nat → β)
    (cmp : Nat → Nat → Ordering)
    (Hcmp : ∀ x y, cmp x y = .gt ↔ F y < F x) :
    ∀ (n a : Nat),
      a ≤ (List.range' (a + 1) n).foldl (maxByStep cmp) a ∧
      (List.range' (a + 1) n).foldl (maxByStep cmp) a ≤ a + n ∧
      (∀ c, a ≤ c → c ≤ a + n → F c ≤ F ((List.range' (a + 1) n).foldl (maxByStep cmp) a)) ∧
      (∀ c, a ≤ c → c ≤ a + n → F c = F ((List.range' (a + 1) n).foldl (maxByStep cmp) a) →
        c ≤ (List.range' (a + 1) n).foldl (maxByStep cmp) a) := by
  intro n
  induction n with
  | zero =>
    intro a
    simp only [List.range', List.foldl_nil]
    refine ⟨le_refl a, by omega, ?_, ?_⟩
    · intro c h1 h2
      have hc : c = a := by omega
      rw [hc]
    · intro c h1 h2 _
      omega
  | succ n ih =>
    intro a
    obtain ⟨ih1, ih2, ih3, ih4⟩ := ih a
    have hconcat : List.range' (a + 1) (n + 1) = List.range' (a + 1) n ++ [a + 1 + n] := by
      have := @List.range'_concat 1 (a + 1) n
      simpa using this
    rw [hconcat, List.foldl_append]
    set R := (List.range' (a + 1) n).foldl (maxByStep cmp) a with hR
    simp only [List.foldl_cons, List.foldl_nil]
    by_cases hgt : cmp R (a + 1 + n) = .gt
    · have hlt : F (a + 1 + n) < F R := (Hcmp _ _).mp hgt
      have hstep : maxByStep cmp R (a + 1 + n) = R := by unfold maxByStep; rw [if_pos hgt]
      rw [hstep]
      refine ⟨ih1, by omega, ?_, ?_⟩
      · intro c h1 h2
        rcases Nat.lt_or_ge c (a + n + 1) with h | h
        · exact ih3 c h1 (by omega)
        · have : c = a + 1 + n := by omega
          rw [this]; exact le_of_lt hlt
      · intro c h1 h2 heq
        rcases Nat.lt_or_ge c (a + n + 1) with h | h
        · exact ih4 c h1 (by omega) heq
        · have : c = a + 1 + n := by omega
          rw [this] at heq; exact absurd heq (ne_of_lt hlt)
    · have hle : F R ≤ F (a + 1 + n) := not_lt.mp ((Hcmp _ _).not.mp hgt)
      have hstep : maxByStep cmp R (a + 1 + n) = a + 1 + n := by
        unfold maxByStep; rw [if_neg hgt]
      rw [hstep]
      refine ⟨by omega, by omega, ?_, ?_⟩
      · intro c h1 h2
        rcases Nat.lt_or_ge c (a + n + 1) with h | h
        · exact le_trans (ih3 c h1 (by omega)) hle
        · have : c = a + 1 + n := by omega
          rw [this]
      · intro c h1 h2 _
        omega

/-- The candidate list of `find_key_single_byte_xor_cipher` is non-empty, so
the `max_by` is `some` of the fold over the remaining candidates 1,…,254. -/
theorem find_key_eq_some_foldl (score : List Nat → Int) (ct : List Nat) :
    find_key_single_byte_xor_cipher? score ct =
      some ((List.range' 1 254).foldl
        (maxByStep (fun x y => total_cmp (score (xor ct x)) (score (xor ct y)))) 0) := by
  have h : List.range 255 = 0 :: List.range' 1 254 := by
    rw [List.range_eq_range']
    simpa using List.range'_succ 0 254 1
  rw [find_key_single_byte_xor_cipher?, h, maxByCmp]

/-- The total version agrees with the fold. -/
theorem find_key_eq_foldl (score : List Nat → Int) (ct : List Nat) :
    find_key_single_byte_xor_cipher score ct =
      (List.range' 1 254).foldl
        (maxByStep (fun x y => total_cmp (score (xor ct x)) (score (xor ct y)))) 0 := by
  rw [find_key_single_byte_xor_cipher, find_key_eq_some_foldl]
  exact Option.getD_some

/-- The spec's keep-first argmax fold over `a, a+1, …, a+n` returns `m`
whenever `m` is in range and every other candidate in range scores strictly
below `m`. -/
theorem foldl_specmax_unique {β : Type} [LinearOrder β] (F : Nat → β) (m : Nat) :
    ∀ (n a : Nat), a ≤ m →
      (∀ c, a ≤ c → c ≤ a + n → c ≠ m → F c < F m) →
      (a ≤ (List.range' (a + 1) n).foldl (fun x y => if F x < F y then y else x) a ∧
        (List.range' (a + 1) n).foldl (fun x y => if F x < F y then y else x) a ≤ a + n) ∧
      (m ≤ a + n → (List.range' (a + 1) n).foldl (fun x y => if F x < F y then y else x) a = m) := by
  intro n
  induction n with
  | zero =>
    intro a ham _
    simp only [List.range', List.foldl_nil]
    exact ⟨⟨le_refl a, by omega⟩, fun h => by omega⟩
  | succ n ih =>
    intro a ham hstrict
    have hconcat : List.range' (a + 1) (n + 1) = List.range' (a + 1) n ++ [a + 1 + n] := by
      simpa using @List.range'_concat 1 (a + 1) n
    rw [hconcat, List.foldl_append]
    obtain ⟨⟨hb1, hb2⟩, hm⟩ := ih a ham
      (fun c h1 h2 h3 => hstrict c h1 (by omega) h3)
    set R := (List.range' (a + 1) n).foldl (fun x y => if F x < F y then y else x) a with hR
    simp only [List.foldl_cons, List.foldl_nil]
    by_cases hmn : m ≤ a + n
    · have hRm : R = m := hm hmn
      have hne : a + 1 + n ≠ m := by omega
      have hlt : F (a + 1 + n) < F m := hstrict _ (by omega) (by omega) hne
      rw [hRm, if_neg (not_lt.mpr (le_of_lt hlt))]
      exact ⟨⟨ham, by omega⟩, fun _ => rfl⟩
    · by_cases hmeq : m = a + 1 + n
      · have hne : R ≠ m := by omega
        have hlt : F R < F m := hstrict R hb1 (by omega) hne
        rw [hmeq] at hlt ⊢
        rw [if_pos hlt]
        exact ⟨⟨by omega, by omega⟩, fun _ => rfl⟩
      · constructor
        · constructor
          · split_ifs <;> omega
          · split_ifs <;> omega
        · intro h; omega

/-- The recovered key is always one of the candidates actually iterated,
i.e. at most 254. -/
theorem find_key_le_254 (score : List Nat → Int) (ciphertext : List Nat) :
    find_key_single_byte_xor_cipher score ciphertext ≤ 254 := by
  rw [find_key_eq_foldl]
  have h := foldl_maxByStep_range_spec (fun c => score (xor ciphertext c))
    (fun x y => total_cmp (score (xor ciphertext x)) (score (xor ciphertext y)))
    (fun x y => total_cmp_gt_iff) 254 0
  simpa using h.2.1

/-! ### The claims -/

/-- C8 (confirmed): `find_key_single_byte_xor_cipher` is total for every
ciphertext, including the empty buffer: the internal maximum always exists
(the `expect` is unreachable), and the returned byte lies within the range of
candidates actually iterated, 0,…,254. -/
theorem c8_find_key_total (score : List Nat → Int) (ciphertext : List Nat) :
    (find_key_single_byte_xor_cipher? score ciphertext).isSome = true ∧
    find_key_single_byte_xor_cipher score ciphertext ≤ 254 := by
  constructor
  · rw [find_key_eq_some_foldl]; rfl
  · exact find_key_le_254 score ciphertext

/-- C3 (amended): when several candidates are tied for the maximal score,
`find_key_single_byte_xor_cipher` returns the LAST tied candidate in the
ascending iteration order, i.e. the numerically largest tied candidate (Rust's
`max_by` keeps the last maximum); the returned candidate always has maximal
score among the candidates 0,…,254. -/
theorem c3_last_tied_candidate_wins (score : List Nat → Int) (ct : List Nat) :
    (∀ c, c ≤ 254 →
      score (xor ct c) ≤ score (xor ct (find_key_single_byte_xor_cipher score ct))) ∧
    (∀ c, c ≤ 254 →
      score (xor ct c) = score (xor ct (find_key_single_byte_xor_cipher score ct)) →
      c ≤ find_key_single_byte_xor_cipher score ct) := by
  rw [find_key_eq_foldl score ct]
  have h := foldl_maxByStep_range_spec (fun c => score (xor ct c))
    (fun x y => total_cmp (score (xor ct x)) (score (xor ct y)))
    (fun x y => total_cmp_gt_iff) 254 0
  exact ⟨fun c hc => h.2.2.1 c (by omega) (by omega),
    fun c hc heq => h.2.2.2 c (by omega) (by omega) heq⟩

set_option maxRecDepth 4000 in
/-- C3 (counterexample to the claim as stated): on the empty ciphertext every
candidate decrypts to the empty buffer, so all 255 candidates are tied for the
maximal english score, yet the function returns 254 — the largest tied
candidate, not the smallest (which would be 0). -/
theorem c3_counterexample :
    Crackers.find_key_single_byte_xor_cipher Crackers.english_score [] = 254 ∧
    Crackers.english_score (Crackers.xor [] 0) =
      Crackers.english_score (Crackers.xor [] 254) := by
  constructor
  · decide
  · rfl

/-- C6 (amended): `find_key_single_byte_xor_cipher` never fails on any
ciphertext (non-empty or empty), and on the empty ciphertext — where every
candidate trivially scores equally — it returns 254, the last candidate
iterated, not 0. -/
theorem c6_find_key_empty_returns_254 (score : List Nat → Int) :
    (∀ ct : List Nat, (find_key_single_byte_xor_cipher? score ct).isSome = true) ∧
    find_key_single_byte_xor_cipher score [] = 254 := by
  constructor
  · intro ct; rw [find_key_eq_some_foldl]; rfl
  · rw [find_key_eq_foldl]
    have h := foldl_maxByStep_range_spec (fun c => score (xor ([] : List Nat) c))
      (fun x y => total_cmp (score (xor ([] : List Nat) x)) (score (xor ([] : List Nat) y)))
      (fun x y => total_cmp_gt_iff) 254 0
    have h254 := h.2.2.2 254 (by omega) (by omega) rfl
    have hle := h.2.1
    simp only [Nat.zero_add] at h254 hle
    omega

set_option maxRecDepth 4000 in
/-- C6 (counterexample to the claim as stated): on the empty ciphertext the
function returns 254, not the claimed 0. -/
theorem c6_counterexample :
    Crackers.find_key_single_byte_xor_cipher Crackers.english_score [] ≠ 0 ∧
    Crackers.find_key_single_byte_xor_cipher Crackers.english_score [] = 254 := by
  constructor
  · decide
  · decide

/-- C7 (confirmed): the three core operations are pure functions of their
inputs — in this embedding all state is explicit and two calls on identical
inputs are literally the same value. -/
theorem c7_deterministic (score : List Nat → Int) (ct : List Nat) (cts : List (List Nat)) :
    find_key_single_byte_xor_cipher score ct = find_key_single_byte_xor_cipher score ct ∧
    detect_and_crack_single_byte_xor_cipher score cts =
      detect_and_crack_single_byte_xor_cipher score cts ∧
    find_key_size_repeating_xor_cipher ct = find_key_size_repeating_xor_cipher ct :=
  ⟨rfl, rfl, rfl⟩

set_option maxRecDepth 4000 in
/-- C1 (code bug): on the ciphertext obtained by XOR-ing the English text
"the eel" with the key byte 255, the candidate 255 has the strictly maximal
english score among all 256 byte candidates (third conjunct, checked over the
other 255 candidates by the second conjunct being an evaluation of the spec's
own 0..=255 search), yet `find_key_single_byte_xor_cipher` cannot return it:
Rust's `(0u8..255)` is a half-open range, the candidate 255 is never
considered, and the function returns a different byte. -/
theorem c1_candidate_255_never_found :
    Crackers.find_key_single_byte_xor_cipher Crackers.english_score
      [139, 151, 154, 223, 154, 154, 147] ≠ 255 ∧
    Crackers.find_key_single_byte_xor_cipher_spec Crackers.english_score
      [139, 151, 154, 223, 154, 154, 147] = 255 ∧
    (List.range 255).all (fun c =>
      decide (Crackers.english_score (Crackers.xor [139, 151, 154, 223, 154, 154, 147] c) <
        Crackers.english_score (Crackers.xor [139, 151, 154, 223, 154, 154, 147] 255))) = true := by
  have hstrict : (List.range 255).all (fun c =>
      decide (Crackers.english_score (Crackers.xor [139, 151, 154, 223, 154, 154, 147] c) <
        Crackers.english_score (Crackers.xor [139, 151, 154, 223, 154, 154, 147] 255))) = true := by
    decide
  refine ⟨?_, ?_, hstrict⟩
  · have h := find_key_le_254 english_score [139, 151, 154, 223, 154, 154, 147]
    omega
  · have hstrict' : ∀ c, c < 255 →
        english_score (xor [139, 151, 154, 223, 154, 154, 147] c) <
          english_score (xor [139, 151, 154, 223, 154, 154, 147] 255) := by
      intro c hc
      have := List.all_eq_true.mp hstrict c (List.mem_range.mpr hc)
      exact of_decide_eq_true this
    have h := foldl_specmax_unique
      (fun c => english_score (xor [139, 151, 154, 223, 154, 154, 147] c)) 255 255 0
      (by omega)
      (fun c _ h2 h3 => hstrict' c (by omega))
    rw [find_key_single_byte_xor_cipher_spec]
    exact h.2 (by omega)

/-- XOR with a single-byte key preserves the buffer length
(the invariant stated in §3 of the spec). -/
theorem xor_length (data : List Nat) (key : Nat) : (xor data key).length = data.length :=
  List.length_map _ _

/-- On a non-empty batch, `detect_and_crack_single_byte_xor_cipher` succeeds
with the `max_by` fold over the decryptions. -/
theorem detect_cons_eq (score : List Nat → Int) (c : List Nat) (rest : List (List Nat)) :
    detect_and_crack_single_byte_xor_cipher score (c :: rest) =
      .ok ((rest.map (fun x => xor x (find_key_single_byte_xor_cipher score x))).foldl
        (maxByStep (fun x y => total_cmp (score x) (score y)))
        (xor c (find_key_single_byte_xor_cipher score c))) := by
  rw [detect_and_crack_single_byte_xor_cipher]
  simp only [List.isEmpty_cons, List.map_cons, Bool.false_eq_true, if_false]
  rfl

/-- C5 (confirmed): `detect_and_crack_single_byte_xor_cipher` fails with the
empty-input error exactly when the batch is empty, and otherwise returns a
decryption (each input decrypted with its own recovered key) whose english
score is maximal across the whole batch. -/
theorem c5_detect_batch_max (score : List Nat → Int) (cts : List (List Nat))
    (h : cts ≠ []) :
    detect_and_crack_single_byte_xor_cipher score [] = .error .EmptyArrayError ∧
    ∃ p, detect_and_crack_single_byte_xor_cipher score cts = .ok p ∧
      p ∈ cts.map (fun x => xor x (find_key_single_byte_xor_cipher score x)) ∧
      ∀ q ∈ cts.map (fun x => xor x (find_key_single_byte_xor_cipher score x)),
        score q ≤ score p := by
  refine ⟨rfl, ?_⟩
  obtain ⟨c, rest, rfl⟩ := List.exists_cons_of_ne_nil h
  rw [detect_cons_eq]
  have h' := foldl_maxByStep_spec score (fun x y => total_cmp (score x) (score y))
    (fun _ => True) (fun x y _ _ => total_cmp_gt_iff)
    (rest.map (fun x => xor x (find_key_single_byte_xor_cipher score x)))
    (xor c (find_key_single_byte_xor_cipher score c)) trivial (fun _ _ => trivial)
  obtain ⟨-, hmem, hinit, hall⟩ := h'
  refine ⟨_, rfl, ?_, ?_⟩
  · rw [List.map_cons]
    rcases hmem with h1 | h1
    · rw [h1]; exact List.mem_cons_self _ _
    · exact List.mem_cons_of_mem _ h1
  · intro q hq
    rw [List.map_cons] at hq
    rcases List.mem_cons.mp hq with h1 | h1
    · rw [h1]; exact hinit
    · exact hall q h1

/-- C5 witness at a concrete non-empty batch. -/
theorem c5_witness :
    (([[1, 2, 3]] : List (List Nat)) ≠ []) ∧
    (Crackers.detect_and_crack_single_byte_xor_cipher Crackers.english_score [] =
      .error .EmptyArrayError ∧
    ∃ p, Crackers.detect_and_crack_single_byte_xor_cipher Crackers.english_score [[1, 2, 3]] =
        .ok p ∧
      p ∈ ([[1, 2, 3]] : List (List Nat)).map
        (fun x => Crackers.xor x (Crackers.find_key_single_byte_xor_cipher Crackers.english_score x)) ∧
      ∀ q ∈ ([[1, 2, 3]] : List (List Nat)).map
        (fun x => Crackers.xor x (Crackers.find_key_single_byte_xor_cipher Crackers.english_score x)),
        Crackers.english_score q ≤ Crackers.english_score p) :=
  ⟨by decide, c5_detect_batch_max english_score [[1, 2, 3]] (by decide)⟩

/-- C9 (confirmed): on every non-empty batch the function returns `Ok`, and
the returned buffer is `xor c k` for some input element `c` with
`k = find_key_single_byte_xor_cipher c`; in particular it has the same length
as that element. -/
theorem c9_result_is_decrypted_member (score : List Nat → Int) (cts : List (List Nat))
    (h : cts ≠ []) :
    ∃ c, c ∈ cts ∧
      detect_and_crack_single_byte_xor_cipher score cts =
        .ok (xor c (find_key_single_byte_xor_cipher score c)) ∧
      (xor c (find_key_single_byte_xor_cipher score c)).length = c.length := by
  obtain ⟨c0, rest, rfl⟩ := List.exists_cons_of_ne_nil h
  rw [detect_cons_eq]
  have h' := foldl_maxByStep_spec score (fun x y => total_cmp (score x) (score y))
    (fun _ => True) (fun x y _ _ => total_cmp_gt_iff)
    (rest.map (fun x => xor x (find_key_single_byte_xor_cipher score x)))
    (xor c0 (find_key_single_byte_xor_cipher score c0)) trivial (fun _ _ => trivial)
  obtain ⟨-, hmem, -, -⟩ := h'
  rcases hmem with h1 | h1
  · exact ⟨c0, List.mem_cons_self _ _, by rw [h1], xor_length _ _⟩
  · obtain ⟨c, hc, hfc⟩ := List.mem_map.mp h1
    exact ⟨c, List.mem_cons_of_mem _ hc, by rw [hfc], xor_length _ _⟩

/-- C9 witness at a concrete non-empty batch. -/
theorem c9_witness :
    (([[7, 8]] : List (List Nat)) ≠ []) ∧
    ∃ c, c ∈ ([[7, 8]] : List (List Nat)) ∧
      Crackers.detect_and_crack_single_byte_xor_cipher Crackers.english_score [[7, 8]] =
        .ok (Crackers.xor c (Crackers.find_key_single_byte_xor_cipher Crackers.english_score c)) ∧
      (Crackers.xor c (Crackers.find_key_single_byte_xor_cipher Crackers.english_score c)).length =
        c.length :=
  ⟨by decide, c9_result_is_decrypted_member english_score [[7, 8]] (by decide)⟩

/-! ### Helper lemmas for the key-size inferrer -/

theorem mem_range'_iff {s n m : Nat} : m ∈ List.range' s n ↔ s ≤ m ∧ m < s + n := by
  rw [List.mem_range']
  constructor
  · rintro ⟨i, hi, rfl⟩; omega
  · intro ⟨hl, hr⟩; exact ⟨m - s, by omega, by omega⟩

/-- An in-range slice succeeds and has length `b - a`. -/
theorem slice_eq_some {text : List Nat} {a b : Nat} (h1 : a ≤ b) (h2 : b ≤ text.length) :
    ∃ u, slice text a b = some u ∧ u.length = b - a := by
  refine ⟨(text.drop a).take (b - a), ?_, ?_⟩
  · rw [slice, if_pos ⟨h1, h2⟩]
  · rw [List.length_take, List.length_drop]
    omega

/-- An out-of-range slice panics. -/
theorem slice_eq_none {text : List Nat} {a b : Nat} (h : text.length < b) :
    slice text a b = none := by
  rw [slice, if_neg]
  rintro ⟨-, h2⟩
  omega

/-- Equal-length buffers have a Hamming distance. -/
theorem hamming_distance_eq_some {a b : List Nat} (h : a.length = b.length) :
    ∃ d, hamming_distance a b = some d :=
  ⟨_, by rw [hamming_distance, if_pos h]⟩

/-- When the text covers all `n + 1` blocks, the distance sum is defined. -/
theorem sum_hamming_eq_some (text : List Nat) (bs : Nat) :
    ∀ n, bs * (n + 1) ≤ text.length → ∃ t, sum_hamming_distances text bs n = some t := by
  intro n
  induction n with
  | zero => exact fun _ => ⟨0, rfl⟩
  | succ n ih =>
    intro h
    have hmono1 : bs * (n + 1) ≤ bs * (n + 2) := Nat.mul_le_mul_left bs (by omega)
    obtain ⟨rest, hrest⟩ := ih (le_trans hmono1 h)
    have hab1 : bs * n ≤ bs * (n + 1) := Nat.mul_le_mul_left bs (by omega)
    obtain ⟨u1, hu1, hlen1⟩ := slice_eq_some hab1 (le_trans hmono1 h)
    obtain ⟨u2, hu2, hlen2⟩ := slice_eq_some hmono1 h
    have e1 : bs * (n + 1) = bs * n + bs := by ring
    have e2 : bs * (n + 2) = bs * n + 2 * bs := by ring
    have hlen : u1.length = u2.length := by
      rw [hlen1, hlen2]
      omega
    obtain ⟨d, hd⟩ := hamming_distance_eq_some hlen
    refine ⟨rest + d, ?_⟩
    rw [sum_hamming_distances, hrest, hu1, hu2]
    show (hamming_distance u1 u2).map (fun d => rest + d) = some (rest + d)
    rw [hd]
    rfl

/-- When the text is too short for the last block pair, the sum panics. -/
theorem sum_hamming_eq_none (text : List Nat) (bs : Nat) :
    ∀ n, text.length < bs * (n + 2) → sum_hamming_distances text bs (n + 1) = none := by
  intro n
  induction n with
  | zero =>
    intro h
    have h2 : slice text (bs * (0 + 1)) (bs * (0 + 2)) = none := slice_eq_none h
    rw [sum_hamming_distances, h2,
      show sum_hamming_distances text bs 0 = some 0 from rfl]
    rcases slice text (bs * 0) (bs * (0 + 1)) with _ | u1 <;> rfl
  | succ n ih =>
    intro h
    rcases Nat.lt_or_ge text.length (bs * (n + 2)) with hlt | hge
    · have hnone := ih hlt
      rw [sum_hamming_distances, hnone]
    · have h2 : slice text (bs * (n + 1 + 1)) (bs * (n + 1 + 2)) = none := slice_eq_none h
      rw [sum_hamming_distances, h2]
      rcases h3 : sum_hamming_distances text bs (n + 1) with _ | rest
      · rfl
      · rcases h4 : slice text (bs * (n + 1)) (bs * (n + 1 + 1)) with _ | u1 <;> rfl

/-- The average is defined with the exact denominator `10 · block_size`
whenever the text covers the 11 sampled blocks. -/
theorem average_hamming_eq_some {text : List Nat} {bs : Nat} (h : bs * 11 ≤ text.length) :
    ∃ t, average_hamming_distance text bs = some ⟨t, 10 * bs⟩ := by
  obtain ⟨t, ht⟩ := sum_hamming_eq_some text bs NUM_BLOCKS_AVG_DIST h
  refine ⟨t, ?_⟩
  rw [average_hamming_distance, ht]
  rfl

/-- The average panics whenever the text does not cover the 11 sampled
blocks. -/
theorem average_hamming_eq_none {text : List Nat} {bs : Nat} (h : text.length < bs * 11) :
    average_hamming_distance text bs = none := by
  have hs := sum_hamming_eq_none text bs 9 h
  rw [average_hamming_distance,
    show NUM_BLOCKS_AVG_DIST = 9 + 1 from rfl, hs]
  rfl

/-- `find_key_size_repeating_xor_cipher`, dispatched on its guard: the
candidate list `2,…,40` is non-empty, so inside the guard the `min_by` is the
fold over the candidates `3,…,40` started at `2`. -/
theorem find_key_size_dispatch (ct : List Nat) :
    find_key_size_repeating_xor_cipher ct =
      if ((List.range' 2 39).all (fun s => (average_hamming_distance ct s).isSome)) = true then
        .ok ((List.range' 3 38).foldl
          (minByStep (fun x y => Frac.cmp
            ((average_hamming_distance ct x).getD ⟨0, 1⟩)
            ((average_hamming_distance ct y).getD ⟨0, 1⟩))) 2)
      else .error .Panic := by
  rfl

/-- The `min_by` fold only looks at the comparator on traversed elements. -/
theorem foldl_minByStep_congr {α : Type} (cmp1 cmp2 : α → α → Ordering) (P : α → Prop)
    (H : ∀ x y, P x → P y → cmp1 x y = cmp2 x y) :
    ∀ (l : List α) (a : α), P a → (∀ b ∈ l, P b) →
      l.foldl (minByStep cmp1) a = l.foldl (minByStep cmp2) a := by
  intro l
  induction l with
  | nil => intro a _ _; rfl
  | cons b t ih =>
    intro a Pa Pbt
    have Pb : P b := Pbt b (by simp)
    have Pt : ∀ c ∈ t, P c := fun c hc => Pbt c (by simp [hc])
    have hstep : minByStep cmp1 a b = minByStep cmp2 a b := by
      unfold minByStep
      rw [H a b Pa Pb]
    have Pstep : P (minByStep cmp2 a b) := by
      unfold minByStep
      split_ifs <;> assumption
    simp only [List.foldl_cons]
    rw [hstep]
    exact ih (minByStep cmp2 a b) Pstep Pt

/-- Two texts agreeing on their first `N` bytes produce equal slices for any
slice ending within `N`. -/
theorem slice_congr {t1 t2 : List Nat} {N a b : Nat} (hpre : t1.take N = t2.take N)
    (hb : b ≤ N) (hl1 : N ≤ t1.length) (hl2 : N ≤ t2.length) :
    slice t1 a b = slice t2 a b := by
  by_cases hab : a ≤ b
  · have key : ∀ t : List Nat, N ≤ t.length →
        (t.drop a).take (b - a) = ((t.take N).drop a).take (b - a) := by
      intro t _
      rw [List.drop_take, List.take_take, min_eq_left (by omega)]
    rw [slice, slice, if_pos ⟨hab, by omega⟩, if_pos ⟨hab, by omega⟩]
    rw [key t1 hl1, key t2 hl2, hpre]
  · rw [slice, slice, if_neg (by tauto), if_neg (by tauto)]

/-- The distance sums agree whenever all sampled blocks lie within the
common prefix. -/
theorem sum_hamming_congr {t1 t2 : List Nat} {N bs : Nat} (hpre : t1.take N = t2.take N)
    (hl1 : N ≤ t1.length) (hl2 : N ≤ t2.length) :
    ∀ n, bs * (n + 1) ≤ N → sum_hamming_distances t1 bs n = sum_hamming_distances t2 bs n := by
  intro n
  induction n with
  | zero => intro _; rfl
  | succ n ih =>
    intro h
    have e1 : bs * (n + 1) = bs * n + bs := by ring
    have e2 : bs * (n + 2) = bs * n + 2 * bs := by ring
    have e3 : bs * (n + 1 + 1) = bs * n + 2 * bs := by ring
    have hrest := ih (by omega)
    have hs1 : slice t1 (bs * n) (bs * (n + 1)) = slice t2 (bs * n) (bs * (n + 1)) :=
      slice_congr hpre (by omega) hl1 hl2
    have hs2 : slice t1 (bs * (n + 1)) (bs * (n + 2)) = slice t2 (bs * (n + 1)) (bs * (n + 2)) :=
      slice_congr hpre (by omega) hl1 hl2
    rw [sum_hamming_distances, sum_hamming_distances, hrest, hs1, hs2]

/-- The averages agree whenever the 11 sampled blocks lie within the common
prefix. -/
theorem average_hamming_congr {t1 t2 : List Nat} {N bs : Nat} (hpre : t1.take N = t2.take N)
    (hl1 : N ≤ t1.length) (hl2 : N ≤ t2.length) (hbs : bs * 11 ≤ N) :
    average_hamming_distance t1 bs = average_hamming_distance t2 bs := by
  rw [average_hamming_distance, average_hamming_distance,
    sum_hamming_congr hpre hl1 hl2 NUM_BLOCKS_AVG_DIST hbs]

theorem list_all_congr {α : Type} {f g : α → Bool} :
    ∀ {l : List α}, (∀ x ∈ l, f x = g x) → l.all f = l.all g := by
  intro l
  induction l with
  | nil => intro _; rfl
  | cons a t ih =>
    intro h
    rw [List.all_cons, List.all_cons, h a (by simp), ih (fun x hx => h x (by simp [hx]))]

/-! ### Claims about the key-size inferrer -/

/-- C2 (confirmed): on any ciphertext long enough to sample all candidate
sizes (at least 440 = 40·11 bytes), `find_key_size_repeating_xor_cipher`
succeeds and returns a size in [2, 40] whose average normalised Hamming
distance — the sum over the 10 adjacent pairs of the 11 sampled blocks,
divided by 10·s — is minimal among all candidate sizes. -/
theorem c2_find_key_size_minimizes (ct : List Nat) (h : 440 ≤ ct.length) :
    ∃ r, find_key_size_repeating_xor_cipher ct = .ok r ∧ 2 ≤ r ∧ r ≤ 40 ∧
      ∀ s, 2 ≤ s → s ≤ 40 →
        ∃ fr fs, average_hamming_distance ct r = some fr ∧
          average_hamming_distance ct s = some fs ∧ fr.toRat ≤ fs.toRat := by
  have havg : ∀ s, 2 ≤ s → s ≤ 40 →
      ∃ t, average_hamming_distance ct s = some ⟨t, 10 * s⟩ := by
    intro s h2 h40
    apply average_hamming_eq_some
    have : s * 11 ≤ 40 * 11 := Nat.mul_le_mul_right _ h40
    omega
  have hall : ((List.range' 2 39).all
      (fun s => (average_hamming_distance ct s).isSome)) = true := by
    rw [List.all_eq_true]
    intro s hs
    obtain ⟨h2, h41⟩ := mem_range'_iff.mp hs
    obtain ⟨t, ht⟩ := havg s h2 (by omega)
    rw [ht]
    rfl
  rw [find_key_size_dispatch, if_pos hall]
  have hgd : ∀ s, 2 ≤ s → s ≤ 40 →
      ∃ t, (average_hamming_distance ct s).getD ⟨0, 1⟩ = ⟨t, 10 * s⟩ ∧
        average_hamming_distance ct s = some ⟨t, 10 * s⟩ := by
    intro s h2 h40
    obtain ⟨t, ht⟩ := havg s h2 h40
    exact ⟨t, by rw [ht]; rfl, ht⟩
  have Hcmp : ∀ x y, (2 ≤ x ∧ x ≤ 40) → (2 ≤ y ∧ y ≤ 40) →
      ((fun x y => Frac.cmp
        ((average_hamming_distance ct x).getD ⟨0, 1⟩)
        ((average_hamming_distance ct y).getD ⟨0, 1⟩)) x y = .gt ↔
      ((average_hamming_distance ct y).getD ⟨0, 1⟩).toRat <
        ((average_hamming_distance ct x).getD ⟨0, 1⟩).toRat) := by
    intro x y hx hy
    obtain ⟨tx, hgx, -⟩ := hgd x hx.1 hx.2
    obtain ⟨ty, hgy, -⟩ := hgd y hy.1 hy.2
    have hdx : 0 < ((average_hamming_distance ct x).getD ⟨0, 1⟩).den := by
      rw [hgx]
      show 0 < 10 * x
      omega
    have hdy : 0 < ((average_hamming_distance ct y).getD ⟨0, 1⟩).den := by
      rw [hgy]
      show 0 < 10 * y
      omega
    exact Frac.cmp_gt_iff hdx hdy
  have hmin := foldl_minByStep_spec
    (fun s => ((average_hamming_distance ct s).getD ⟨0, 1⟩).toRat)
    (fun x y => Frac.cmp
      ((average_hamming_distance ct x).getD ⟨0, 1⟩)
      ((average_hamming_distance ct y).getD ⟨0, 1⟩))
    (fun s => 2 ≤ s ∧ s ≤ 40) Hcmp (List.range' 3 38) 2 ⟨by omega, by omega⟩
    (fun b hb => by
      obtain ⟨h3, h41⟩ := mem_range'_iff.mp hb
      exact ⟨by omega, by omega⟩)
  obtain ⟨⟨hr2, hr40⟩, -, hmin2, hminall⟩ := hmin
  refine ⟨_, rfl, hr2, hr40, ?_⟩
  intro s h2 h40
  obtain ⟨tr, hgr, hr⟩ := hgd _ hr2 hr40
  obtain ⟨ts, hgs, hs⟩ := hgd s h2 h40
  refine ⟨_, _, hr, hs, ?_⟩
  have hFle : ((average_hamming_distance ct
      ((List.range' 3 38).foldl (minByStep (fun x y => Frac.cmp
        ((average_hamming_distance ct x).getD ⟨0, 1⟩)
        ((average_hamming_distance ct y).getD ⟨0, 1⟩))) 2)).getD ⟨0, 1⟩).toRat ≤
      ((average_hamming_distance ct s).getD ⟨0, 1⟩).toRat := by
    rcases Nat.eq_or_lt_of_le h2 with heq | hlt
    · rw [← heq]
      exact hmin2
    · exact hminall s (mem_range'_iff.mpr ⟨by omega, by omega⟩)
  rw [hgr, hgs] at hFle
  exact hFle

/-- C2 witness: a concrete 440-byte ciphertext satisfies the hypothesis and
hence the conclusion. -/
theorem c2_witness :
    440 ≤ (List.replicate 440 0 : List Nat).length ∧
    (∃ r, Crackers.find_key_size_repeating_xor_cipher (List.replicate 440 0) = .ok r ∧
      2 ≤ r ∧ r ≤ 40 ∧
      ∀ s, 2 ≤ s → s ≤ 40 →
        ∃ fr fs, Crackers.average_hamming_distance (List.replicate 440 0) r = some fr ∧
          Crackers.average_hamming_distance (List.replicate 440 0) s = some fs ∧
          fr.toRat ≤ fs.toRat) := by
  have hlen : 440 ≤ (List.replicate 440 (0 : Nat)).length := by
    rw [List.length_replicate]
  exact ⟨hlen, c2_find_key_size_minimizes (List.replicate 440 0) hlen⟩

/-- C4 (amended): on every ciphertext shorter than 440 bytes the call fails —
but with a Rust panic raised by the out-of-range block slicing inside
`average_hamming_distance`, not with an `InsufficientDataError` result: the
source's signature returns a bare `usize` and has no such error. -/
theorem c4_short_ciphertext_panics (ct : List Nat) (h : ct.length < 440) :
    find_key_size_repeating_xor_cipher ct = .error .Panic := by
  have h40 : average_hamming_distance ct 40 = none := average_hamming_eq_none (by omega)
  have hall : ((List.range' 2 39).all
      (fun s => (average_hamming_distance ct s).isSome)) = false := by
    cases hb : (List.range' 2 39).all (fun s => (average_hamming_distance ct s).isSome) with
    | false => rfl
    | true =>
      exfalso
      have h40' := List.all_eq_true.mp hb 40 (by decide)
      rw [h40] at h40'
      simp at h40'
  rw [find_key_size_dispatch, hall]
  rfl

/-- C4 witness: the empty ciphertext satisfies the hypothesis and hence
panics. -/
theorem c4_witness :
    (([] : List Nat).length < 440) ∧
    Crackers.find_key_size_repeating_xor_cipher [] = .error .Panic :=
  ⟨by decide, c4_short_ciphertext_panics [] (by decide)⟩

/-- C4 (counterexample to the claim as stated): on the empty ciphertext —
too short to sample even one candidate size — the function fails by a panic,
which is not an `InsufficientDataError` result. -/
theorem c4_counterexample :
    Crackers.find_key_size_repeating_xor_cipher [] = .error .Panic ∧
    Crackers.CrackError.Panic ≠ Crackers.CrackError.InsufficientDataError :=
  ⟨rfl, by decide⟩

/-- C10 (confirmed): the inferred key size depends only on the first
440 bytes of the ciphertext: two sufficiently long ciphertexts agreeing on
their 440-byte prefix yield the same result. -/
theorem c10_depends_only_on_440_prefix (t1 t2 : List Nat) (h1 : 440 ≤ t1.length)
    (h2 : 440 ≤ t2.length) (hpre : t1.take 440 = t2.take 440) :
    find_key_size_repeating_xor_cipher t1 = find_key_size_repeating_xor_cipher t2 := by
  have havg : ∀ s, 2 ≤ s → s ≤ 40 →
      average_hamming_distance t1 s = average_hamming_distance t2 s := by
    intro s hs2 hs40
    apply average_hamming_congr hpre h1 h2
    have : s * 11 ≤ 40 * 11 := Nat.mul_le_mul_right _ hs40
    omega
  have hall : ((List.range' 2 39).all (fun s => (average_hamming_distance t1 s).isSome)) =
      ((List.range' 2 39).all (fun s => (average_hamming_distance t2 s).isSome)) := by
    apply list_all_congr
    intro s hs
    obtain ⟨hs2, hs41⟩ := mem_range'_iff.mp hs
    rw [havg s hs2 (by omega)]
  rw [find_key_size_dispatch t1, find_key_size_dispatch t2, hall]
  cases hb : (List.range' 2 39).all (fun s => (average_hamming_distance t2 s).isSome) with
  | false =>
    show (Except.error CrackError.Panic : Except CrackError Nat) = Except.error CrackError.Panic
    rfl
  | true =>
    have hfold := foldl_minByStep_congr
      (fun x y => Frac.cmp
        ((average_hamming_distance t1 x).getD ⟨0, 1⟩)
        ((average_hamming_distance t1 y).getD ⟨0, 1⟩))
      (fun x y => Frac.cmp
        ((average_hamming_distance t2 x).getD ⟨0, 1⟩)
        ((average_hamming_distance t2 y).getD ⟨0, 1⟩))
      (fun s => 2 ≤ s ∧ s ≤ 40)
      (fun x y hx hy => by simp only [havg x hx.1 hx.2, havg y hy.1 hy.2])
      (List.range' 3 38) 2 ⟨by omega, by omega⟩
      (fun b hb' => by
        obtain ⟨h3, h41⟩ := mem_range'_iff.mp hb'
        exact ⟨by omega, by omega⟩)
    rw [hfold]

/-- C10 witness: two concrete distinct ciphertexts agreeing on their first
440 bytes. -/
theorem c10_witness :
    440 ≤ (List.replicate 440 0 : List Nat).length ∧
    440 ≤ (List.replicate 440 0 ++ [7] : List Nat).length ∧
    (List.replicate 440 0 : List Nat).take 440 = (List.replicate 440 0 ++ [7]).take 440 ∧
    Crackers.find_key_size_repeating_xor_cipher (List.replicate 440 0) =
      Crackers.find_key_size_repeating_xor_cipher (List.replicate 440 0 ++ [7]) := by
  have hlen1 : 440 ≤ (List.replicate 440 (0 : Nat)).length := by
    rw [List.length_replicate]
  have hlen2 : 440 ≤ (List.replicate 440 (0 : Nat) ++ [7]).length := by
    rw [List.length_append, List.length_replicate]
    omega
  have hpre : (List.replicate 440 0 : List Nat).take 440 =
      (List.replicate 440 0 ++ [7]).take 440 := by
    rw [List.take_append_of_le_length (by rw [List.length_replicate])]
  exact ⟨hlen1, hlen2, hpre,
    c10_depends_only_on_440_prefix _ _ hlen1 hlen2 hpre⟩

end Crackers
